import Mathlib

/-!
Verification development for the CSSLint engine of the stylus repository
(js/csslint/csslint.js).  JavaScript strings are embedded as `List Char`,
JS objects with string keys as association lists, `-1`-returning index
searches as `Int` with the `-1` sentinel, and the in-place mutation of the
`Reporter` as explicit state passing.  The CSS parser collaborator is out
of scope (see the spec); its observable effect on a `verify` call is the
sequence of `Reporter` method invocations performed by the attached
listeners, which we abstract as a `List RepCall`.
-/

namespace Csslint

/-- The JavaScript regular-expression whitespace class. -/
def jsWs (c : Char) : Bool :=
  c = ' ' || c = '\t' || c = '\n' || c = '\r' || c.val = 11 || c.val = 12 ||
  c.val = 0xa0 || c.val = 0x1680 || (0x2000 ≤ c.val && c.val ≤ 0x200a) ||
  c.val = 0x2028 || c.val = 0x2029 || c.val = 0x202f || c.val = 0x205f ||
  c.val = 0x3000 || c.val = 0xfeff

/-- The JavaScript word-character class used by the lookahead of
`rxGrammarAbbr` (the complement of the class written as a backslash
followed by an upper-case W). -/
def isWordChar (c : Char) : Bool := c.isAlpha || c.isDigit || c = '_'

/-- Case folding of a character list, modelling `String.prototype.toLowerCase`
on the ASCII range used by the engine. -/
def lowList (l : List Char) : List Char := l.map Char.toLower

/-- First index at which `pat` occurs in the list, if any. -/
def findIdx (pat : List Char) : List Char → Option Nat
  | [] => if pat.isEmpty then some 0 else none
  | c :: rest =>
    if pat.isPrefixOf (c :: rest) then some 0 else (findIdx pat rest).map (· + 1)

/-- `String.prototype.indexOf(pat, fr)`: the least position at or after
`max fr 0` where `pat` occurs, `-1` when there is none. -/
def jsIndexOfFrom (hay pat : List Char) (fr : Int) : Int :=
  match findIdx pat (hay.drop fr.toNat) with
  | some i => ((fr.toNat + i : Nat) : Int)
  | none => -1

/-- `String.prototype.indexOf(pat)`. -/
def jsIndexOf (hay pat : List Char) : Int := jsIndexOfFrom hay pat 0

/-- `String.prototype.lastIndexOf(pat, fr)`: the greatest position at or
before `fr` (clamped into the string) where `pat` occurs, `-1` otherwise. -/
def jsLastIndexOf (hay pat : List Char) (fr : Int) : Int :=
  let limit := min fr.toNat hay.length
  match ((List.range (limit + 1)).filter
      (fun k => pat.isPrefixOf (hay.drop k))).getLast? with
  | some k => (k : Int)
  | none => -1

/-- JS `String.prototype.split(sep)` for a single-character separator. -/
def splitOnChar (c : Char) (l : List Char) : List (List Char) :=
  l.foldr
    (fun x acc =>
      match acc with
      | h :: t => if x = c then [] :: h :: t else (x :: h) :: t
      | [] => [[x]])
    [[]]

/-- JS `String.prototype.trim` (both ends, whitespace class as above). -/
def trimL (l : List Char) : List Char :=
  ((l.dropWhile jsWs).reverse.dropWhile jsWs).reverse

/-- JS object assignment `m[k] = v`: updates an existing key in place
(keeping its position) or appends a new key at the end. -/
def assocSet {α β : Type} [DecidableEq α] : List (α × β) → α → β → List (α × β)
  | [], k, v => [(k, v)]
  | (k0, v0) :: rest, k, v =>
    if k0 = k then (k, v) :: rest else (k0, v0) :: assocSet rest k v

/-- The probe computed in `verify` (csslint.js lines 161-164):
`emi = text.lastIndexOf('/*', text.indexOf('csslint', text.indexOf('/*') + 1
|| text.length) + 1)`.  Note `indexOf` is case-sensitive, so only a
lower-case `csslint` occurrence is probed for. -/
def probeIndex (text : List Char) : Int :=
  let a : Int := jsIndexOf text ['/', '*'] + 1
  let b : Int := if a = 0 then (text.length : Int) else a
  jsLastIndexOf text ['/', '*'] (jsIndexOfFrom text "csslint".toList b + 1)

/-- One attempted match of `rxEmbedded` at the head of `l`, returning the
captured group and the total number of characters consumed.  The pattern
is slash, star, whitespace star, `csslint` (case-insensitive), whitespace
plus, a lazy non-empty body whose stars are not followed by a slash
(hence the body runs to the first star-slash), then star-slash.  When the
remainder after the maximal whitespace run starts directly with the
star-slash terminator, the regex engine backtracks the greedy whitespace
plus by one character, which then serves as the one-character body. -/
def matchCommentAt (l : List Char) : Option (List Char × Nat) :=
  match l with
  | '/' :: '*' :: l1 =>
    let n0 := (l1.takeWhile jsWs).length
    let l2 := l1.drop n0
    if lowList (l2.take 7) = "csslint".toList then
      let l3 := l2.drop 7
      let w := l3.takeWhile jsWs
      let rest := l3.drop w.length
      if w.length = 0 then none
      else
        match findIdx ['*', '/'] rest with
        | none => none
        | some 0 =>
          if 2 ≤ w.length then some (w.drop (w.length - 1), 2 + n0 + 7 + w.length + 2)
          else none
        | some (p + 1) => some (rest.take (p + 1), 2 + n0 + 7 + w.length + (p + 1) + 2)
    else none
  | _ => none

/-- `rxEmbedded.exec` with `lastIndex = i`: the first match at a position
at or after `i`, as (match index, captured group, end position).  Fueled
so that the definition evaluates by the kernel; any fuel of at least
`text.length + 1 - i` is exact. -/
def execFrom (text : List Char) : Nat → Nat → Option (Nat × List Char × Nat)
  | 0, _ => none
  | fuel + 1, i =>
    if text.length < i then none
    else
      match matchCommentAt (text.drop i) with
      | some (body, n) => some (i, body, i + n)
      | none => execFrom text fuel (i + 1)

/-- The full sequence of `rxEmbedded` matches scanned from position `i`,
each as (match index, captured group, end position). -/
def matchesFrom (text : List Char) : Nat → Nat → List (Nat × List Char × Nat)
  | 0, _ => []
  | fuel + 1, i =>
    match execFrom text (text.length + 2) i with
    | none => []
    | some (p, body, e) => (p, body, e) :: matchesFrom text fuel e

/-- The inner while loop of `applyEmbeddedOverrides` that advances `eol`
(position of the last seen newline, `-1` initially, the text length once
newlines are exhausted) and the 1-based line counter until `eol` passes
the match index. -/
def advanceLine (text : List Char) (idx : Nat) : Nat → Int → Nat → Int × Nat
  | 0, eol, lineno => (eol, lineno)
  | fuel + 1, eol, lineno =>
    if eol ≤ (idx : Int) then
      let e2 := jsIndexOfFrom text ['\n'] (eol + 1)
      let e3 : Int := if e2 < 0 then (text.length : Int) else e2
      advanceLine text idx fuel e3 (lineno + 1)
    else (eol, lineno)

/-- The mutable locals of `applyEmbeddedOverrides` plus its three output
objects. -/
structure ScanState where
  ruleset : List (String × Nat)
  allow : List (Nat × List String)
  ignore : List (Nat × Nat)
  ignoreStart : Option Nat
  lineno : Nat
  eol : Int
deriving DecidableEq

/-- `EBMEDDED_RULE_VALUE_MAP` lookup on the trimmed level token. -/
def embeddedValueMap (v : List Char) : Option Nat :=
  if v = "true".toList ∨ v = "2".toList then some 2
  else if v = [] ∨ v = "1".toList then some 1
  else if v = "false".toList ∨ v = "0".toList then some 0
  else none

/-- The switch body of `applyEmbeddedOverrides` run for one match whose
captured group is `body` (the state already carries the match's line). -/
def processDirective (body : List Char) (st : ScanState) : ScanState :=
  let ovr := lowList body
  let cmd := ovr.takeWhile (fun c => c ≠ ':')
  let i := cmd.length + 1
  if trimL cmd = "allow".toList then
    let names := (splitOnChar ',' (ovr.drop i)).map (fun s => String.mk (trimL s))
    let allowNames := names.foldl (fun acc n => if n ∈ acc then acc else acc ++ [n]) []
    if names.length ≠ 0 then { st with allow := assocSet st.allow st.lineno allowNames }
    else st
  else if trimL cmd = "ignore".toList then
    if (findIdx "start".toList ovr).isSome then
      { st with ignoreStart := some (st.ignoreStart.getD st.lineno) }
    else if (findIdx "end".toList ovr).isSome then
      match st.ignoreStart with
      | some s => { st with ignore := st.ignore ++ [(s, st.lineno)], ignoreStart := none }
      | none => st
    else st
  else
    let rs2 := (splitOnChar ',' (ovr.drop i)).foldl
      (fun rs rule =>
        let pair := splitOnChar ':' rule
        let property := pair.headD []
        let value := pair.getD 1 []
        assocSet rs (String.mk (trimL property)) ((embeddedValueMap (trimL value)).getD 1))
      st.ruleset
    { st with ruleset := rs2 }

/-- The match-processing while loop of `applyEmbeddedOverrides`. -/
def scanLoop (text : List Char) : Nat → Nat → ScanState → ScanState
  | 0, _, st => st
  | fuel + 1, i, st =>
    match execFrom text (text.length + 2) i with
    | none => st
    | some (p, body, e) =>
      let el := advanceLine text p (text.length + 2) st.eol st.lineno
      scanLoop text fuel e (processDirective body { st with eol := el.1, lineno := el.2 })

def initialScanState (ruleset : List (String × Nat)) : ScanState :=
  ⟨ruleset, [], [], none, 0, -1⟩

/-- `applyEmbeddedOverrides(text, ruleset, allow, ignore)` scanning from
position `start` (the caller pre-sets `rxEmbedded.lastIndex`), including
the final close of a pending ignore block at the current line counter. -/
def applyEmbeddedOverrides (text : List Char) (ruleset : List (String × Nat))
    (start : Nat) : ScanState :=
  let st := scanLoop text (text.length + 2) start (initialScanState ruleset)
  match st.ignoreStart with
  | some s => { st with ignore := st.ignore ++ [(s, st.lineno)] }
  | none => st

/-- The ruleset/allow/ignore portion of a `verify` call.  `ruleset` is the
effective ruleset after the unconditional `ruleset.errors = 2`;
`callerRuleset` is the value of the caller-supplied ruleset object after
the call: when the probe fails there is no clone, so the `errors`
assignment lands on the caller's own object. -/
structure OverridesResult where
  ruleset : List (String × Nat)
  allow : List (Nat × List String)
  ignore : List (Nat × Nat)
  callerRuleset : List (String × Nat)
deriving DecidableEq

def verifyOverrides (text : List Char) (ruleset : List (String × Nat)) : OverridesResult :=
  let emi := probeIndex text
  if 0 ≤ emi then
    let st := applyEmbeddedOverrides text ruleset emi.toNat
    ⟨assocSet st.ruleset "errors" 2, st.allow, st.ignore, ruleset⟩
  else
    let rs := assocSet ruleset "errors" 2
    ⟨rs, [], [], rs⟩

/-- Message type tags ('error', 'warning', 'info'). -/
inductive Severity
  | error
  | warning
  | info
deriving DecidableEq

/-- A diagnostic pushed onto `Reporter.messages`.  Fields absent on the
JavaScript object (`evidence`, `line`, `col` of a rollup message; the
`rollup` flag of a positional message is absent and hence falsy) are
modelled with `Option`/`false`.  The rule object is represented by its
id. -/
structure Message where
  type : Severity
  evidence : Option String
  line : Option Nat
  col : Option Nat
  message : String
  ruleId : String
  rollup : Bool
deriving DecidableEq

/-- A position destructured as `{line = 1, col = 1}`; callers that pass an
object without those properties get the defaults. -/
structure Pos where
  line : Nat
  col : Nat
deriving DecidableEq

structure Reporter where
  messages : List Message
  stats : List (String × Nat)
  lines : List String
  ruleset : List (String × Nat)
  allow : List (Nat × List String)
  ignore : List (Nat × Nat)
deriving DecidableEq

/-- `Reporter.error`: always appended with severity error. -/
def Reporter.error (r : Reporter) (msg : String) (pos : Pos) (ruleId : String) : Reporter :=
  { r with messages := r.messages ++
      [⟨Severity.error, r.lines.get? (pos.line - 1), some pos.line, some pos.col,
        msg, ruleId, false⟩] }

/-- The allow check of `Reporter.report`:
`line in this.allow && rule.id in this.allow[line]`. -/
def allowedOn (allow : List (Nat × List String)) (line : Nat) (id : String) : Bool :=
  match allow.lookup line with
  | some ids => ids.contains id
  | none => false

/-- The ignore check of `Reporter.report`:
`this.ignore.some(range => range[0] <= line && line <= range[1])`. -/
def ignoredOn (ignore : List (Nat × Nat)) (line : Nat) : Bool :=
  ignore.any (fun rg => rg.1 ≤ line && line ≤ rg.2)

/-- `Reporter.report`: appended unless allow-listed on the line or the
line lies in an ignore range; severity error exactly when the ruleset
level is 2. -/
def Reporter.report (r : Reporter) (msg : String) (pos : Pos) (ruleId : String) : Reporter :=
  if allowedOn r.allow pos.line ruleId || ignoredOn r.ignore pos.line then r
  else
    { r with messages := r.messages ++
        [⟨(if r.ruleset.lookup ruleId = some 2 then Severity.error else Severity.warning),
          r.lines.get? (pos.line - 1), some pos.line, some pos.col, msg, ruleId, false⟩] }

/-- `Reporter.info`: always appended with severity info. -/
def Reporter.info (r : Reporter) (msg : String) (pos : Pos) (ruleId : String) : Reporter :=
  { r with messages := r.messages ++
      [⟨Severity.info, r.lines.get? (pos.line - 1), some pos.line, some pos.col,
        msg, ruleId, false⟩] }

/-- `Reporter.rollupError`: always appended, rollup, severity error. -/
def Reporter.rollupError (r : Reporter) (msg : String) (ruleId : String) : Reporter :=
  { r with messages := r.messages ++
      [⟨Severity.error, none, none, none, msg, ruleId, true⟩] }

/-- `Reporter.rollupWarn`: always appended, rollup, severity warning. -/
def Reporter.rollupWarn (r : Reporter) (msg : String) (ruleId : String) : Reporter :=
  { r with messages := r.messages ++
      [⟨Severity.warning, none, none, none, msg, ruleId, true⟩] }

/-- `Reporter.stat`: records a named numeric value on the reporter. -/
def Reporter.stat (r : Reporter) (name : String) (value : Nat) : Reporter :=
  { r with stats := assocSet r.stats name value }

/-- One invocation of a `Reporter` method, the unit of observable effect
the parser collaborator and the attached rule listeners have during
`parser.parse` (including the catch handler's `reporter.error`). -/
inductive RepCall
  | report (msg : String) (pos : Pos) (ruleId : String)
  | error (msg : String) (pos : Pos) (ruleId : String)
  | info (msg : String) (pos : Pos) (ruleId : String)
  | rollupError (msg : String) (ruleId : String)
  | rollupWarn (msg : String) (ruleId : String)
  | stat (name : String) (value : Nat)
deriving DecidableEq

def applyCall (r : Reporter) : RepCall → Reporter
  | RepCall.report msg pos id => r.report msg pos id
  | RepCall.error msg pos id => r.error msg pos id
  | RepCall.info msg pos id => r.info msg pos id
  | RepCall.rollupError msg id => r.rollupError msg id
  | RepCall.rollupWarn msg id => r.rollupWarn msg id
  | RepCall.stat name value => r.stat name value

def runCalls (r : Reporter) : List RepCall → Reporter
  | [] => r
  | c :: cs => runCalls (applyCall r c) cs

/-- The comparator of csslint.js line 194:
`(a, b) => !!a.rollup - !!b.rollup || a.line - b.line || a.col - b.col`.
A subtraction involving an absent (`undefined`) coordinate yields NaN,
which is falsy, so evaluation falls through to the next clause; a final
NaN comparator value is treated by the sort as no reorder, modelled as
0. -/
def msgCmp (a b : Message) : Int :=
  let r : Int := (if a.rollup then 1 else 0) - (if b.rollup then 1 else 0)
  if r ≠ 0 then r
  else
    match a.line, b.line with
    | some la, some lb =>
      if (la : Int) - lb ≠ 0 then (la : Int) - lb
      else
        match a.col, b.col with
        | some ca, some cb => (ca : Int) - cb
        | _, _ => 0
    | _, _ =>
      match a.col, b.col with
      | some ca, some cb => (ca : Int) - cb
      | _, _ => 0

def jsInsert (x : Message) : List Message → List Message
  | [] => [x]
  | y :: ys => if msgCmp x y ≤ 0 then x :: y :: ys else y :: jsInsert x ys

/-- `Array.prototype.sort` is a stable sort (ES2019) driven by the
comparator; on the comparator-consistent inputs the engine produces this
is realised by stable insertion sort. -/
def jsSortStable : List Message → List Message
  | [] => []
  | x :: xs => jsInsert x (jsSortStable xs)

/-- `ABBR_MAP` of csslint.js lines 94-104. -/
def abbrMap (s : List Char) : Option (List Char) :=
  if s = "int".toList then some "integer".toList
  else if s = "len".toList then some "length".toList
  else if s = "num".toList then some "number".toList
  else if s = "pct".toList then some "percentage".toList
  else if s = "rel-hsl".toList then some "h-s-l-alpha-none".toList
  else if s = "rel-hwb".toList then some "h-w-b-alpha-none".toList
  else if s = "rel-lab".toList then some "l-a-b-alpha-none".toList
  else if s = "rel-lch".toList then some "l-c-h-alpha-none".toList
  else if s = "rel-rgb".toList then some "r-g-b-alpha-none".toList
  else none

/-- The abbreviation alternation `int|len|num|pct|rel-(three word chars)`
of `rxGrammarAbbr`, tried at the position right after the separator; the
alternatives start with pairwise distinct characters, so the regex
alternation is deterministic. -/
def matchRelTail : List Char → Option (List Char × List Char)
  | a :: b :: c :: rest =>
    if isWordChar a && isWordChar b && isWordChar c then
      some (['r', 'e', 'l', '-', a, b, c], rest)
    else none
  | _ => none

def matchAbbrAfterSep (l : List Char) : Option (List Char × List Char) :=
  if "int".toList.isPrefixOf l then some ("int".toList, l.drop 3)
  else if "len".toList.isPrefixOf l then some ("len".toList, l.drop 3)
  else if "num".toList.isPrefixOf l then some ("num".toList, l.drop 3)
  else if "pct".toList.isPrefixOf l then some ("pct".toList, l.drop 3)
  else if "rel-".toList.isPrefixOf l then matchRelTail (l.drop 4)
  else none

/-- The lookahead `(?=\W)`: the next character exists and is a non-word
character. -/
def lookNonWord : List Char → Bool
  | [] => false
  | c :: _ => !isWordChar c

/-- The replacement `(_, c, str) => c + (ABBR_MAP[str]) || str`: the
separator concatenated with the table entry; a missing entry concatenates
the string form of `undefined` (and the `|| str` fallback is dead, a
non-empty string being truthy). -/
def replaceAbbr (abbr : List Char) : List Char :=
  match abbrMap abbr with
  | some e => e
  | none => "undefined".toList

/-- Left-to-right global replacement with `rxGrammarAbbr`: at a separator
character, if the alternation matches and the lookahead holds, emit the
separator and the replacement and resume after the matched abbreviation
(the lookahead character is not consumed); otherwise advance one
character.  Fueled; any fuel of at least the list length is exact. -/
def grammarGo : Nat → List Char → List Char
  | 0, l => l
  | _ + 1, [] => []
  | fuel + 1, c :: rest =>
    if c = '-' ∨ c = '<' then
      match matchAbbrAfterSep rest with
      | some (abbr, rest2) =>
        if lookNonWord rest2 then c :: (replaceAbbr abbr ++ grammarGo fuel rest2)
        else c :: grammarGo fuel rest
      | none => c :: grammarGo fuel rest
    else c :: grammarGo fuel rest

/-- The post-processing of one message text (csslint.js lines 195-199):
the replacement runs only when the text contains a `<`.  (The assignment
of `indexOf('<')` to `rxGrammarAbbr.lastIndex` has no further effect:
`String.prototype.replace` with a global regex always scans from position
0.) -/
def postproc (s : List Char) : List Char :=
  match findIdx ['<'] s with
  | some _ => grammarGo s.length s
  | none => s

/-- A `property` parser event as consumed by the floats rule: the
property token text, its vendor-prefix offset (`0` when there is none,
matching the falsiness test on `vendorPos`), and the value text. -/
structure PropEvent where
  propertyText : String
  vendorPos : Nat
  valueText : String
deriving DecidableEq

/-- `CSSLint.Util.getPropName`: the lower-cased property text without its
vendor prefix. -/
def getPropName (e : PropEvent) : String :=
  let low := String.mk (lowList e.propertyText.toList)
  if e.vendorPos ≠ 0 then String.mk (low.toList.drop e.vendorPos) else low

/-- The property listener of the floats rule counts properties named
`float` whose lower-cased value text is not `none`. -/
def isCountedFloat (e : PropEvent) : Bool :=
  getPropName e == "float" && String.mk (lowList e.valueText.toList) != "none"

def floatsCount (events : List PropEvent) : Nat :=
  events.countP (fun e => isCountedFloat e)

def floatsMessage (count : Nat) : String :=
  "Too many floats (" ++ Nat.repr count ++ "), you" ++
  String.singleton (Char.ofNat 39) ++
  "re probably using them for layout. Consider using a grid system instead."

/-- The `endstylesheet` listener of the floats rule: record the stat, and
roll up a warning when the count is at least 10. -/
def floatsEndCalls (count : Nat) : List RepCall :=
  RepCall.stat "floats" count ::
  (if 10 ≤ count then [RepCall.rollupWarn (floatsMessage count) "floats"] else [])

/-- The complete reporter effect of the floats rule on a parse whose
property events are `events`. -/
def floatsCalls (events : List PropEvent) : List RepCall :=
  floatsEndCalls (floatsCount events)

/-- The rule ids registered through `CSSLint.addRule`, in source order. -/
def registeredRuleIds : List String :=
  ["box-model", "compatible-vendor-prefixes", "display-property-grouping",
   "duplicate-background-images", "duplicate-properties", "empty-rules",
   "errors", "floats", "font-faces", "font-sizes", "globals-in-document",
   "gradients", "ids", "import", "important", "known-properties",
   "known-pseudos", "order-alphabetical", "outline-none",
   "overqualified-elements", "qualified-headings", "regex-selectors",
   "selector-newline", "shorthand", "shorthand-overrides", "simple-not",
   "star-property-hack", "text-indent", "underscore-property-hack",
   "unique-headings", "universal-selector", "unqualified-attributes",
   "vendor-prefix", "warnings", "zero-units"]

/-- The init loop of `verify` (lines 184-187): a rule's `init` is invoked
exactly for the entries with a truthy mode whose id is registered;
returns the ids initialised, in entry order. -/
def initOrder (ruleset : List (String × Nat)) : List String :=
  (ruleset.filter (fun p => p.2 ≠ 0 && registeredRuleIds.contains p.1)).map (fun p => p.1)

/-- The object returned by `verify`.  It is built as `{messages}` (line
177), so it carries no `stats` property: `stats := none` models the
absent key.  `callerRuleset` records the caller-visible value of the
ruleset argument after the call. -/
structure VerifyResult where
  messages : List Message
  stats : Option (List (String × Nat))
  callerRuleset : List (String × Nat)
deriving DecidableEq

/-- The `Reporter` as constructed at csslint.js line 175: note the lines
argument is the empty array, not the split source text. -/
def verifyReporter (text : List Char) (ruleset : List (String × Nat)) : Reporter :=
  let ov := verifyOverrides text ruleset
  ⟨[], [], [], ov.ruleset, ov.allow, ov.ignore⟩

/-- The reporter messages accumulated by the parse phase of `verify`,
with the collaborator's behaviour abstracted as the call list. -/
def verifyEmitted (calls : List RepCall) (text : List Char)
    (ruleset : List (String × Nat)) : List Message :=
  (runCalls (verifyReporter text ruleset) calls).messages

/-- The per-message post-processing step of `verify`. -/
def ppMsg (m : Message) : Message :=
  { m with message := String.mk (postproc m.message.toList) }

/-- `verify(text, ruleset)` with the parse phase abstracted by `calls`:
apply overrides, run the calls against the freshly built reporter, sort,
post-process, and return `{messages}`. -/
def verifyModel (calls : List RepCall) (text : List Char)
    (ruleset : List (String × Nat)) : VerifyResult :=
  ⟨(jsSortStable (verifyEmitted calls text ruleset)).map ppMsg, none,
   (verifyOverrides text ruleset).callerRuleset⟩

/-- C10: when the embedded-directive probe finds no csslint comment, there
is no clone, so the forced `ruleset.errors = 2` lands on the
caller-supplied ruleset object and is visible to the caller after
`verify` returns; when the probe matches, the overrides run on a clone
and the caller's object is untouched. -/
theorem verify_ruleset_mutation (text : List Char) (rs : List (String × Nat)) :
    (probeIndex text < 0 →
      (verifyOverrides text rs).callerRuleset = assocSet rs "errors" 2) ∧
    (0 ≤ probeIndex text → (verifyOverrides text rs).callerRuleset = rs) := by
  constructor
  · intro h
    rw [verifyOverrides, if_neg (by omega)]
  · intro h
    rw [verifyOverrides, if_pos h]

theorem verify_ruleset_mutation_witness :
    (verifyOverrides "a{}".toList [("ids", 1)]).callerRuleset =
      assocSet [("ids", 1)] "errors" 2 ∧
    (verifyOverrides "/* csslint ids */".toList [("ids", 1)]).callerRuleset =
      [("ids", 1)] :=
  ⟨(verify_ruleset_mutation "a{}".toList [("ids", 1)]).1 (by decide),
   (verify_ruleset_mutation "/* csslint ids */".toList [("ids", 1)]).2 (by decide)⟩

/-- C2 (counterexample): `verify` builds its result as `{messages}`
(line 177), so even a call on whose behalf a statistic was recorded via
`reporter.stat` returns an object with no `stats` property. -/
theorem verify_returns_no_stats_cex :
    (verifyModel [RepCall.stat "floats" 3] "a{}".toList [("floats", 1)]).stats = none :=
  rfl

/-- C2 (amended): `verify` returns an object with a `messages` array (the
sorted, post-processed reporter messages) but no `stats` property; the
values recorded via `reporter.stat` stay on the discarded `Reporter`. -/
theorem verify_report_shape (calls : List RepCall) (text : List Char)
    (rs : List (String × Nat)) :
    (verifyModel calls text rs).stats = none ∧
    (verifyModel calls text rs).messages =
      (jsSortStable (verifyEmitted calls text rs)).map ppMsg :=
  ⟨rfl, rfl⟩

/-- C3 (code bug): the probe is case-sensitive although the directive
regex is case-insensitive, so skipping the scan is not equivalent to
running it unconditionally.  On this input the probe fails and no ignore
range is recorded, while the unconditional scan (from position 0) records
the range. -/
theorem probe_skip_misses_uppercase_directive :
    probeIndex "x /* CSSLINT ignore:start */".toList = -1 ∧
    (verifyOverrides "x /* CSSLINT ignore:start */".toList []).ignore = [] ∧
    (applyEmbeddedOverrides "x /* CSSLINT ignore:start */".toList [] 0).ignore =
      [(1, 1)] := by
  refine ⟨by decide, ?_, by decide⟩
  rw [verifyOverrides, if_neg (by decide)]

/-- C4: `Reporter.report` appends a message unless the rule id is
allow-listed on that exact line or the line lies inside some ignore
range; any ignore range containing the line suppresses the report;
`Reporter.error` and the rollup appenders push unconditionally, with no
allow or ignore check. -/
theorem reporter_report_filtering (r : Reporter) (msg : String) (pos : Pos)
    (id : String) (s e : Nat) :
    ((s, e) ∈ r.ignore → s ≤ pos.line → pos.line ≤ e →
      (r.report msg pos id).messages = r.messages) ∧
    (allowedOn r.allow pos.line id = true →
      (r.report msg pos id).messages = r.messages) ∧
    (allowedOn r.allow pos.line id = false → ignoredOn r.ignore pos.line = false →
      (r.report msg pos id).messages = r.messages ++
        [⟨(if r.ruleset.lookup id = some 2 then Severity.error else Severity.warning),
          r.lines.get? (pos.line - 1), some pos.line, some pos.col, msg, id, false⟩]) ∧
    ((r.error msg pos id).messages = r.messages ++
      [⟨Severity.error, r.lines.get? (pos.line - 1), some pos.line, some pos.col,
        msg, id, false⟩]) ∧
    ((r.rollupError msg id).messages = r.messages ++
      [⟨Severity.error, none, none, none, msg, id, true⟩]) ∧
    ((r.rollupWarn msg id).messages = r.messages ++
      [⟨Severity.warning, none, none, none, msg, id, true⟩]) := by
  refine ⟨?_, ?_, ?_, rfl, rfl, rfl⟩
  · intro hmem hs he
    have hig : ignoredOn r.ignore pos.line = true := by
      unfold ignoredOn
      exact List.any_eq_true.mpr ⟨(s, e), hmem, by simp [hs, he]⟩
    rw [Reporter.report, if_pos (by rw [hig, Bool.or_true])]
  · intro hal
    rw [Reporter.report, if_pos (by rw [hal, Bool.true_or])]
  · intro hal hig
    rw [Reporter.report, if_neg (by rw [hal, hig]; simp)]

theorem reporter_report_filtering_witness :
    ((⟨[], [], [], [("ids", 2)], [], [(2, 5)]⟩ : Reporter).report "m" ⟨3, 1⟩
        "ids").messages = [] ∧
    ((⟨[], [], [], [("ids", 2)], [], []⟩ : Reporter).report "m" ⟨3, 1⟩
        "ids").messages =
      [⟨Severity.error, none, some 3, some 1, "m", "ids", false⟩] := by
  constructor
  · exact (reporter_report_filtering ⟨[], [], [], [("ids", 2)], [], [(2, 5)]⟩
      "m" ⟨3, 1⟩ "ids" 2 5).1 (by decide) (by decide) (by decide)
  · have h := (reporter_report_filtering ⟨[], [], [], [("ids", 2)], [], []⟩
      "m" ⟨3, 1⟩ "ids" 2 5).2.2.1 (by decide) (by decide)
    simpa using h

/-- C7: the floats rule is exact at its boundary: nine counted float
properties produce no message at all, ten produce exactly one rollup
warning whose text begins with the cited count. -/
theorem floats_threshold_boundary (events : List PropEvent) (r : Reporter) :
    (floatsCount events = 9 →
      (runCalls r (floatsCalls events)).messages = r.messages) ∧
    (floatsCount events = 10 →
      (runCalls r (floatsCalls events)).messages = r.messages ++
        [⟨Severity.warning, none, none, none, floatsMessage 10, "floats", true⟩] ∧
      "Too many floats (10)".toList.isPrefixOf (floatsMessage 10).toList = true) := by
  constructor
  · intro h9
    rw [floatsCalls, h9]
    rfl
  · intro h10
    rw [floatsCalls, h10]
    exact ⟨rfl, by decide⟩

theorem floats_threshold_boundary_witness :
    (runCalls ⟨[], [], [], [], [], []⟩
        (floatsCalls (List.replicate 9 ⟨"float", 0, "left"⟩))).messages = [] ∧
    (runCalls ⟨[], [], [], [], [], []⟩
        (floatsCalls (List.replicate 10 ⟨"float", 0, "left"⟩))).messages =
      [⟨Severity.warning, none, none, none, floatsMessage 10, "floats", true⟩] := by
  constructor
  · exact (floats_threshold_boundary (List.replicate 9 ⟨"float", 0, "left"⟩)
      ⟨[], [], [], [], [], []⟩).1 (by decide)
  · have h := (floats_threshold_boundary (List.replicate 10 ⟨"float", 0, "left"⟩)
      ⟨[], [], [], [], [], []⟩).2 (by decide)
    simpa using h.1

theorem lookup_of_mem_nodup :
    ∀ (rs : List (String × Nat)), (rs.map Prod.fst).Nodup →
      ∀ {id : String} {v : Nat}, (id, v) ∈ rs → rs.lookup id = some v := by
  intro rs
  induction rs with
  | nil => intro _ id v h; cases h
  | cons p tl ih =>
    intro hnd id v hmem
    rw [List.map_cons, List.nodup_cons] at hnd
    rcases List.mem_cons.mp hmem with heq | hmemtl
    · rw [← heq]
      simp [List.lookup]
    · have hne : (id == p.1) = false := by
        rw [beq_eq_false_iff_ne]
        intro hcontra
        exact hnd.1 (hcontra ▸ List.mem_map_of_mem Prod.fst hmemtl)
      obtain ⟨p1, p2⟩ := p
      rw [List.lookup, hne]
      exact ih hnd.2 hmemtl

/-- C5: a level-2 entry makes every message the rule reports an error, a
level-1 entry makes it a warning, and a level-0 entry is skipped by the
init loop (`mode && rules[id]` is falsy), so the rule attaches no
listener at all. -/
theorem rule_level_semantics (rs : List (String × Nat)) (id : String)
    (hnd : (rs.map Prod.fst).Nodup) (r : Reporter) (msg : String) (pos : Pos)
    (hrs : r.ruleset = rs)
    (hallow : allowedOn r.allow pos.line id = false)
    (hign : ignoredOn r.ignore pos.line = false) :
    (rs.lookup id = some 2 →
      (r.report msg pos id).messages = r.messages ++
        [⟨Severity.error, r.lines.get? (pos.line - 1), some pos.line, some pos.col,
          msg, id, false⟩]) ∧
    (rs.lookup id = some 1 →
      (r.report msg pos id).messages = r.messages ++
        [⟨Severity.warning, r.lines.get? (pos.line - 1), some pos.line, some pos.col,
          msg, id, false⟩]) ∧
    (rs.lookup id = some 0 → id ∉ initOrder rs) := by
  have hni : (allowedOn r.allow pos.line id || ignoredOn r.ignore pos.line) ≠ true := by
    rw [hallow, hign]
    simp
  refine ⟨?_, ?_, ?_⟩
  · intro h2
    rw [Reporter.report, if_neg hni]
    simp [hrs, h2]
  · intro h1
    rw [Reporter.report, if_neg hni]
    simp [hrs, h1]
  · intro h0 hmem
    obtain ⟨p, hpf, hpid⟩ := List.mem_map.mp hmem
    obtain ⟨hpmem, hpred⟩ := List.mem_filter.mp hpf
    obtain ⟨p1, p2⟩ := p
    dsimp at hpid
    subst hpid
    have hlk : rs.lookup p1 = some p2 := lookup_of_mem_nodup rs hnd hpmem
    rw [h0] at hlk
    have hne : p2 ≠ 0 := of_decide_eq_true ((Bool.and_eq_true _ _).mp hpred).1
    exact hne (Option.some.inj hlk).symm

theorem rule_level_semantics_witness :
    ((⟨[], [], [], [("ids", 2), ("empty-rules", 0)], [], []⟩ : Reporter).report
        "Id in selector" ⟨1, 1⟩ "ids").messages =
      [⟨Severity.error, none, some 1, some 1, "Id in selector", "ids", false⟩] ∧
    "empty-rules" ∉ initOrder [("ids", 2), ("empty-rules", 0)] := by
  constructor
  · have h := (rule_level_semantics [("ids", 2), ("empty-rules", 0)] "ids" (by decide)
      ⟨[], [], [], [("ids", 2), ("empty-rules", 0)], [], []⟩ "Id in selector" ⟨1, 1⟩ rfl
      (by decide) (by decide)).1 (by decide)
    simpa using h
  · exact (rule_level_semantics [("ids", 2), ("empty-rules", 0)] "empty-rules" (by decide)
      ⟨[], [], [], [("ids", 2), ("empty-rules", 0)], [], []⟩ "Id in selector" ⟨1, 1⟩ rfl
      (by decide) (by decide)).2.2 (by decide)

theorem applyCall_lines (r : Reporter) (c : RepCall) : (applyCall r c).lines = r.lines := by
  cases c <;>
    simp only [applyCall, Reporter.report, Reporter.error, Reporter.info,
      Reporter.rollupError, Reporter.rollupWarn, Reporter.stat, apply_ite] <;>
    split <;> rfl

theorem applyCall_messages_evidence (r : Reporter) (c : RepCall) (hl : r.lines = [])
    (hik : ∀ m ∈ r.messages, m.evidence = none) :
    ∀ m ∈ (applyCall r c).messages, m.evidence = none := by
  cases c <;>
    simp only [applyCall, Reporter.report, Reporter.error, Reporter.info,
      Reporter.rollupError, Reporter.rollupWarn, Reporter.stat, hl]
  case report msg pos id =>
    split
    · exact hik
    · intro m hm
      rcases List.mem_append.mp hm with h | h
      · exact hik m h
      · rw [List.mem_singleton.mp h]
        try rfl
  all_goals
    first
    | exact hik
    | (intro m hm
       rcases List.mem_append.mp hm with h | h
       · exact hik m h
       · rw [List.mem_singleton.mp h]
         try rfl)

theorem runCalls_evidence (calls : List RepCall) (r : Reporter) (hl : r.lines = [])
    (hik : ∀ m ∈ r.messages, m.evidence = none) :
    ∀ m ∈ (runCalls r calls).messages, m.evidence = none := by
  induction calls generalizing r with
  | nil => exact hik
  | cons c cs ih =>
    exact ih (applyCall r c) (by rw [applyCall_lines, hl])
      (applyCall_messages_evidence r c hl hik)

theorem jsInsert_perm (x : Message) (l : List Message) : (jsInsert x l).Perm (x :: l) := by
  induction l with
  | nil => exact List.Perm.refl _
  | cons y ys ih =>
    rw [jsInsert]
    split
    · exact List.Perm.refl _
    · exact (ih.cons y).trans (List.Perm.swap x y ys)

theorem jsSortStable_perm (l : List Message) : (jsSortStable l).Perm l := by
  induction l with
  | nil => exact List.Perm.refl _
  | cons x xs ih => exact (jsInsert_perm x (jsSortStable xs)).trans (ih.cons x)

/-- C9 (counterexample): `verify` constructs its `Reporter` with an empty
lines array (line 175), so the message reported for line 1 of the source
`a{}` carries no evidence, rather than the text of that line. -/
theorem reporter_evidence_empty_cex :
    (verifyEmitted [RepCall.report "Empty rule." ⟨1, 1⟩ "empty-rules"] "a{}".toList
        [("empty-rules", 1)]).map Message.evidence = [none] ∧
    (none : Option String) ≠ some "a{}" := by
  constructor
  · rfl
  · decide

/-- C9 (amended): the `Reporter` is bound to an empty lines array, so
every message returned by `verify` has an absent evidence field; the
line/column of a positional message come from the reporter calls and are
not validated against the source text. -/
theorem verify_messages_no_evidence (calls : List RepCall) (text : List Char)
    (rs : List (String × Nat)) :
    ∀ m ∈ (verifyModel calls text rs).messages, m.evidence = none := by
  intro m hm
  obtain ⟨m0, hm0, hpp⟩ := List.mem_map.mp hm
  have hmem : m0 ∈ verifyEmitted calls text rs :=
    (jsSortStable_perm (verifyEmitted calls text rs)).mem_iff.mp hm0
  have hev := runCalls_evidence calls (verifyReporter text rs) rfl
    (by intro x hx; cases hx) m0 hmem
  rw [← hpp]
  simpa [ppMsg] using hev

theorem verify_messages_no_evidence_witness :
    (⟨Severity.warning, none, some 1, some 1, "Empty rule.", "empty-rules", false⟩ :
        Message).evidence = none :=
  verify_messages_no_evidence [RepCall.report "Empty rule." ⟨1, 1⟩ "empty-rules"]
    "a{}".toList [("empty-rules", 1)]
    ⟨Severity.warning, none, some 1, some 1, "Empty rule.", "empty-rules", false⟩
    (by decide)

theorem findIdx_single_none_iff (c : Char) :
    ∀ s : List Char, findIdx [c] s = none ↔ c ∉ s := by
  intro s
  induction s with
  | nil => simp [findIdx]
  | cons x r ih =>
    rw [findIdx]
    by_cases hx : [c].isPrefixOf (x :: r)
    · rw [if_pos hx]
      have : c = x := by
        have := (List.isPrefixOf_iff_prefix.mp hx)
        exact (List.cons_prefix_cons.mp this).1
      simp [this]
    · rw [if_neg hx]
      have hcx : c ≠ x := by
        intro h
        exact hx (List.isPrefixOf_iff_prefix.mpr (by rw [h]; exact ⟨r, rfl⟩))
      simp [Option.map_eq_none, ih, hcx]

theorem word_ne_lt {a : Char} (h : isWordChar a = true) : a ≠ '<' := by
  intro he
  rw [he] at h
  exact absurd h (by decide)

theorem matchAbbr_fixed_case {pat l abbr rest : List Char}
    (hp : pat.isPrefixOf l = true) (hlt : '<' ∉ pat)
    (h : some (pat, l.drop pat.length) = some (abbr, rest)) :
    l = abbr ++ rest ∧ '<' ∉ abbr := by
  have hpair := Option.some.inj h
  rw [Prod.ext_iff] at hpair
  obtain ⟨ha, hr⟩ := hpair
  dsimp at ha hr
  subst ha
  subst hr
  obtain ⟨t, ht⟩ := List.isPrefixOf_iff_prefix.mp hp
  constructor
  · rw [← ht]
    simp
  · exact hlt

theorem matchAbbrAfterSep_eq {l abbr rest : List Char}
    (h : matchAbbrAfterSep l = some (abbr, rest)) :
    l = abbr ++ rest ∧ '<' ∉ abbr := by
  rw [matchAbbrAfterSep] at h
  split_ifs at h with h1 h2 h3 h4 h5
  · exact matchAbbr_fixed_case h1 (by decide) h
  · exact matchAbbr_fixed_case h2 (by decide) h
  · exact matchAbbr_fixed_case h3 (by decide) h
  · exact matchAbbr_fixed_case h4 (by decide) h
  · obtain ⟨t, ht⟩ := List.isPrefixOf_iff_prefix.mp h5
    rcases hd : l.drop 4 with _ | ⟨a, t1⟩ <;> rw [hd] at h
    · cases h
    · rcases t1 with _ | ⟨b, t2⟩
      · cases h
      · rcases t2 with _ | ⟨c, t3⟩
        · cases h
        · rw [matchRelTail] at h
          by_cases hw : (isWordChar a && isWordChar b && isWordChar c) = true
          · rw [if_pos hw] at h
            have hpair := Option.some.inj h
            rw [Prod.ext_iff] at hpair
            obtain ⟨ha, hr⟩ := hpair
            dsimp at ha hr
            subst ha
            subst hr
            have hww := (Bool.and_eq_true _ _).mp hw
            have hwa := (Bool.and_eq_true _ _).mp hww.1
            constructor
            · have hlt : l = "rel-".toList ++ l.drop 4 := by
                rw [← ht]
                simp
              rw [hlt, hd]
              rfl
            · intro hmem
              simp only [List.mem_cons, List.not_mem_nil, or_false] at hmem
              rcases hmem with h | h | h | h | h | h | h
              · exact absurd h (by decide)
              · exact absurd h (by decide)
              · exact absurd h (by decide)
              · exact absurd h (by decide)
              · exact word_ne_lt hwa.1 h.symm
              · exact word_ne_lt hwa.2 h.symm
              · exact word_ne_lt hww.2 h.symm
          · rw [if_neg hw] at h
            cases h

theorem infix_tail_of_head_notMem :
    ∀ (a b mid : List Char) (c0 : Char), mid.head? = some c0 → c0 ∉ a →
      List.IsInfix mid (a ++ b) → List.IsInfix mid b := by
  intro a
  induction a with
  | nil =>
    intro b mid c0 _ _ h
    simpa using h
  | cons x a1 ih =>
    intro b mid c0 hh hnm hinf
    rw [List.cons_append, List.infix_cons_iff] at hinf
    rcases hinf with hpre | hinf
    · rcases mid with _ | ⟨m0, mrest⟩
      · cases hh
      · have hm0 : m0 = c0 := by simpa using hh
        subst hm0
        have hcx : m0 = x := (List.cons_prefix_cons.mp hpre).1
        exact absurd (by rw [hcx]; exact List.mem_cons_self x a1) hnm
    · exact ih b mid c0 hh (fun hm => hnm (List.mem_cons_of_mem x hm)) hinf

theorem matchAbbrAfterSep_int (t : List Char) :
    matchAbbrAfterSep ('i' :: 'n' :: 't' :: t) = some ("int".toList, t) := by
  rw [matchAbbrAfterSep]
  rw [if_pos (by simp [List.isPrefixOf])]
  rfl

theorem grammarGo_expands_int :
    ∀ (fuel : Nat) (s : List Char), s.length ≤ fuel →
      List.IsInfix "<int>".toList s →
      List.IsInfix "<integer>".toList (grammarGo fuel s) := by
  intro fuel
  induction fuel with
  | zero =>
    intro s hlen hinf
    have hs : s = [] := List.length_eq_zero.mp (Nat.le_zero.mp hlen)
    subst hs
    obtain ⟨u, v, huv⟩ := hinf
    simp at huv
  | succ f ih =>
    intro s hlen hinf
    by_cases hp : List.IsPrefix "<int>".toList s
    · obtain ⟨tail0, htail⟩ := hp
      rw [← htail] at hlen ⊢
      have hlen5 : tail0.length + 5 ≤ f + 1 := by simpa using hlen
      rcases f with _ | f2
      · omega
      · show List.IsInfix "<integer>".toList
          (grammarGo (f2 + 1 + 1) ('<' :: 'i' :: 'n' :: 't' :: '>' :: tail0))
        rw [grammarGo, if_pos (Or.inr rfl), matchAbbrAfterSep_int]
        dsimp only
        rw [if_pos (show lookNonWord ('>' :: tail0) = true from rfl)]
        rw [show replaceAbbr "int".toList = "integer".toList from by decide]
        rw [grammarGo, if_neg (by decide)]
        exact ⟨[], grammarGo f2 tail0, by simp⟩
    · rcases s with _ | ⟨c, rest⟩
      · obtain ⟨u, v, huv⟩ := hinf
        simp at huv
      · have hrest : List.IsInfix "<int>".toList rest := by
          rcases List.infix_cons_iff.mp hinf with hpre | h
          · exact absurd hpre hp
          · exact h
        have hlen2 : rest.length ≤ f := by simpa using hlen
        rw [grammarGo]
        by_cases hsep : c = '-' ∨ c = '<'
        · rw [if_pos hsep]
          rcases hma : matchAbbrAfterSep rest with _ | ⟨abbr, rest2⟩
          · dsimp only
            exact List.infix_cons (ih rest hlen2 hrest)
          · dsimp only
            by_cases hlk : lookNonWord rest2 = true
            · rw [if_pos hlk]
              obtain ⟨heq, hnm⟩ := matchAbbrAfterSep_eq hma
              have hin2 : List.IsInfix "<int>".toList rest2 := by
                refine infix_tail_of_head_notMem abbr rest2 _ '<' rfl hnm ?_
                rw [← heq]
                exact hrest
              have hlen3 : rest2.length ≤ f := by
                have : rest.length = abbr.length + rest2.length := by
                  rw [heq]
                  simp
                omega
              obtain ⟨u, v, huv⟩ := ih rest2 hlen3 hin2
              exact ⟨c :: (replaceAbbr abbr ++ u), v, by rw [← huv]; simp⟩
            · rw [if_neg hlk]
              exact List.infix_cons (ih rest hlen2 hrest)
        · rw [if_neg hsep]
          exact List.infix_cons (ih rest hlen2 hrest)

/-- C8: the post-processing is an abbreviation expansion on matching
substrings only: a message text containing the abbreviated token
`<int>` contains `<integer>` afterwards, and a message text with no `<`
character is returned completely unchanged. -/
theorem grammar_abbr_postprocessing (s : List Char) :
    ('<' ∉ s → postproc s = s) ∧
    (List.IsInfix "<int>".toList s →
      List.IsInfix "<integer>".toList (postproc s)) := by
  constructor
  · intro h
    rw [postproc, (findIdx_single_none_iff '<' s).mpr h]
  · intro hinf
    have hlt : '<' ∈ s := hinf.subset (by decide)
    rw [postproc]
    rcases hfi : findIdx ['<'] s with _ | i
    · exact absurd ((findIdx_single_none_iff '<' s).mp hfi) (by simpa using hlt)
    · exact grammarGo_expands_int s.length s le_rfl hinf

theorem grammar_abbr_postprocessing_witness :
    postproc "no angle bracket".toList = "no angle bracket".toList ∧
    List.IsInfix "<integer>".toList (postproc "Expected <int> here".toList) :=
  ⟨(grammar_abbr_postprocessing "no angle bracket".toList).1 (by decide),
   (grammar_abbr_postprocessing "Expected <int> here".toList).2 (by decide)⟩

/-- Shape invariant of every message a `Reporter` produces: rollup
messages carry no line/column, positional messages carry both. -/
def wfShape (m : Message) : Prop :=
  (m.rollup = true → m.line = none ∧ m.col = none) ∧
  (m.rollup = false → (∃ l, m.line = some l) ∧ (∃ c, m.col = some c))

/-- The ascending (line, column) order the sorted positional messages
satisfy. -/
def lineColLe (a b : Message) : Prop :=
  a.line.getD 0 < b.line.getD 0 ∨
  (a.line.getD 0 = b.line.getD 0 ∧ a.col.getD 0 ≤ b.col.getD 0)

theorem lineColLe_trans {a b c : Message} (h1 : lineColLe a b) (h2 : lineColLe b c) :
    lineColLe a c := by
  rw [lineColLe] at h1 h2 ⊢
  omega

theorem lineColLe_of_not {a b : Message} (h : ¬ lineColLe a b) : lineColLe b a := by
  rw [lineColLe] at h ⊢
  omega

theorem applyCall_wf (r : Reporter) (c : RepCall) (h : ∀ m ∈ r.messages, wfShape m) :
    ∀ m ∈ (applyCall r c).messages, wfShape m := by
  cases c <;>
    simp only [applyCall, Reporter.report, Reporter.error, Reporter.info,
      Reporter.rollupError, Reporter.rollupWarn, Reporter.stat]
  case report msg pos id =>
    split
    · exact h
    · intro m hm
      rcases List.mem_append.mp hm with hmm | hmm
      · exact h m hmm
      · rw [List.mem_singleton.mp hmm]
        exact ⟨(by intro hc; cases hc), fun _ => ⟨⟨pos.line, rfl⟩, ⟨pos.col, rfl⟩⟩⟩
  all_goals
    first
    | exact h
    | (intro m hm
       rcases List.mem_append.mp hm with hmm | hmm
       · exact h m hmm
       · rw [List.mem_singleton.mp hmm]
         exact ⟨fun _ => ⟨rfl, rfl⟩, (by intro hc; cases hc)⟩)
    | (intro m hm
       rcases List.mem_append.mp hm with hmm | hmm
       · exact h m hmm
       · rw [List.mem_singleton.mp hmm]
         exact ⟨(by intro hc; cases hc), fun _ => ⟨⟨_, rfl⟩, ⟨_, rfl⟩⟩⟩)

theorem runCalls_wf (calls : List RepCall) (r : Reporter)
    (h : ∀ m ∈ r.messages, wfShape m) :
    ∀ m ∈ (runCalls r calls).messages, wfShape m := by
  induction calls generalizing r with
  | nil => exact h
  | cons c cs ih => exact ih (applyCall r c) (applyCall_wf r c h)

theorem msgCmp_rollup_left {x p : Message} (hx : x.rollup = true)
    (hp : p.rollup = false) : msgCmp x p = 1 := by
  simp [msgCmp, hx, hp]

theorem msgCmp_nonrollup_rollup {x y : Message} (hx : x.rollup = false)
    (hy : y.rollup = true) : msgCmp x y = -1 := by
  simp [msgCmp, hx, hy]

theorem msgCmp_rollup_both {x y : Message} (hx : x.rollup = true)
    (hy : y.rollup = true) (hxl : x.line = none) (hxc : x.col = none) :
    msgCmp x y = 0 := by
  simp [msgCmp, hx, hy, hxl, hxc]

theorem msgCmp_pos_le_iff {a b : Message} {la lb ca cb : Nat}
    (ha : a.rollup = false) (hb : b.rollup = false)
    (hal : a.line = some la) (hbl : b.line = some lb)
    (hac : a.col = some ca) (hbc : b.col = some cb) :
    (msgCmp a b ≤ 0 ↔ lineColLe a b) := by
  rw [msgCmp, lineColLe]
  simp only [ha, hb, hal, hbl, hac, hbc, Option.getD_some]
  split_ifs with h <;> omega

theorem jsInsert_rollup (x : Message) (hx : x.rollup = true)
    (hxl : x.line = none) (hxc : x.col = none) :
    ∀ (pre R : List Message), (∀ m ∈ pre, m.rollup = false) →
      (∀ m ∈ R, m.rollup = true) → jsInsert x (pre ++ R) = pre ++ x :: R := by
  intro pre
  induction pre with
  | nil =>
    intro R _ hR
    rcases R with _ | ⟨y, ys⟩
    · rfl
    · rw [List.nil_append, jsInsert,
        if_pos (by rw [msgCmp_rollup_both hx (hR y (List.mem_cons_self y ys)) hxl hxc])]
      rfl
  | cons p ps ih =>
    intro R hpre hR
    rw [List.cons_append, jsInsert,
      if_neg (by rw [msgCmp_rollup_left hx (hpre p (List.mem_cons_self p ps))]; omega),
      ih R (fun m hm => hpre m (List.mem_cons_of_mem p hm)) hR]
    rfl

theorem jsInsert_nonrollup (x : Message) (hx : x.rollup = false) :
    ∀ (pre R : List Message), (∀ m ∈ R, m.rollup = true) →
      jsInsert x (pre ++ R) = jsInsert x pre ++ R := by
  intro pre
  induction pre with
  | nil =>
    intro R hR
    rcases R with _ | ⟨y, ys⟩
    · rfl
    · have h1 : jsInsert x [] ++ y :: ys = x :: y :: ys := rfl
      rw [List.nil_append, h1, jsInsert,
        if_pos (by rw [msgCmp_nonrollup_rollup hx (hR y (List.mem_cons_self y ys))]; omega)]
  | cons p ps ih =>
    intro R hR
    rw [List.cons_append, jsInsert, jsInsert]
    split
    · rfl
    · rw [ih R hR]
      rfl

theorem pairwise_jsInsert (x : Message) :
    ∀ pre : List Message, wfShape x → x.rollup = false →
      (∀ m ∈ pre, wfShape m ∧ m.rollup = false) →
      pre.Pairwise lineColLe → (jsInsert x pre).Pairwise lineColLe := by
  intro pre
  induction pre with
  | nil =>
    intro _ _ _ _
    simp [jsInsert]
  | cons y ys ih =>
    intro hwf hx hmem hs
    obtain ⟨hy, hys⟩ := List.pairwise_cons.mp hs
    obtain ⟨⟨lx, hlx⟩, ⟨cx, hcx⟩⟩ := hwf.2 hx
    obtain ⟨hywf, hyroll⟩ := hmem y (List.mem_cons_self y ys)
    obtain ⟨⟨ly, hly⟩, ⟨cy, hcy⟩⟩ := hywf.2 hyroll
    rw [jsInsert]
    split
    · rename_i hle
      have hxy : lineColLe x y :=
        (msgCmp_pos_le_iff hx hyroll hlx hly hcx hcy).mp hle
      refine List.pairwise_cons.mpr ⟨?_, hs⟩
      intro m hm
      rcases List.mem_cons.mp hm with rfl | hm2
      · exact hxy
      · exact lineColLe_trans hxy (hy m hm2)
    · rename_i hgt
      have hnxy : ¬ lineColLe x y := fun hc =>
        hgt ((msgCmp_pos_le_iff hx hyroll hlx hly hcx hcy).mpr hc)
      have hyx : lineColLe y x := lineColLe_of_not hnxy
      refine List.pairwise_cons.mpr ⟨?_, ?_⟩
      · intro m hm
        rcases List.mem_cons.mp ((jsInsert_perm x ys).mem_iff.mp hm) with rfl | hm2
        · exact hyx
        · exact hy m hm2
      · exact ih hwf hx (fun m hm => hmem m (List.mem_cons_of_mem y hm)) hys

theorem jsSortStable_split :
    ∀ l : List Message, (∀ m ∈ l, wfShape m) →
      jsSortStable l =
        jsSortStable (l.filter (fun m => !m.rollup)) ++ l.filter (fun m => m.rollup) := by
  intro l
  induction l with
  | nil => intro _; rfl
  | cons x xs ih =>
    intro hwf
    have hxs : ∀ m ∈ xs, wfShape m := fun m hm => hwf m (List.mem_cons_of_mem x hm)
    have hxwf := hwf x (List.mem_cons_self x xs)
    have hstep : jsSortStable (x :: xs) = jsInsert x (jsSortStable xs) := rfl
    rw [hstep, ih hxs]
    have hpre : ∀ m ∈ jsSortStable (xs.filter (fun m => !m.rollup)), m.rollup = false := by
      intro m hm
      have hmf := List.mem_filter.mp ((jsSortStable_perm _).mem_iff.mp hm)
      simpa using hmf.2
    have hR : ∀ m ∈ xs.filter (fun m => m.rollup), m.rollup = true := by
      intro m hm
      simpa using (List.mem_filter.mp hm).2
    by_cases hroll : x.rollup = true
    · rw [jsInsert_rollup x hroll (hxwf.1 hroll).1 (hxwf.1 hroll).2 _ _ hpre hR]
      rw [List.filter_cons, List.filter_cons]
      simp only [hroll]
      rfl
    · have hroll2 : x.rollup = false := by
        simpa using hroll
      rw [jsInsert_nonrollup x hroll2 _ _ hR]
      rw [List.filter_cons, List.filter_cons]
      simp only [hroll2]
      rfl

theorem pairwise_jsSortStable (l : List Message)
    (h : ∀ m ∈ l, wfShape m ∧ m.rollup = false) :
    (jsSortStable l).Pairwise lineColLe := by
  induction l with
  | nil => simp [jsSortStable]
  | cons x xs ih =>
    have hstep : jsSortStable (x :: xs) = jsInsert x (jsSortStable xs) := rfl
    rw [hstep]
    refine pairwise_jsInsert x (jsSortStable xs) (h x (List.mem_cons_self x xs)).1
      (h x (List.mem_cons_self x xs)).2 ?_ (ih fun m hm => h m (List.mem_cons_of_mem x hm))
    intro m hm
    exact h m (List.mem_cons_of_mem x ((jsSortStable_perm xs).mem_iff.mp hm))

/-- C1: for every input (with the parse phase abstracted by the reporter
calls it performs), the messages array returned by `verify` is the
non-rollup messages first, in ascending (line, column) order, followed by
the rollup messages in the relative order in which they were emitted. -/
theorem verify_messages_order (calls : List RepCall) (text : List Char)
    (rs : List (String × Nat)) :
    ∃ pre,
      (verifyModel calls text rs).messages =
        pre ++ ((verifyEmitted calls text rs).filter (fun m => m.rollup)).map ppMsg ∧
      (∀ m ∈ pre, m.rollup = false) ∧
      pre.Pairwise lineColLe ∧
      pre.Perm (((verifyEmitted calls text rs).filter (fun m => !m.rollup)).map ppMsg) := by
  have hwf : ∀ m ∈ verifyEmitted calls text rs, wfShape m :=
    runCalls_wf calls (verifyReporter text rs) (by intro m hm; cases hm)
  refine ⟨(jsSortStable ((verifyEmitted calls text rs).filter (fun m => !m.rollup))).map ppMsg,
    ?_, ?_, ?_, ?_⟩
  · show (jsSortStable (verifyEmitted calls text rs)).map ppMsg = _
    rw [jsSortStable_split (verifyEmitted calls text rs) hwf, List.map_append]
  · intro m hm
    obtain ⟨m0, hm0, hpp⟩ := List.mem_map.mp hm
    have hmf := List.mem_filter.mp ((jsSortStable_perm _).mem_iff.mp hm0)
    have hnr : m0.rollup = false := by simpa using hmf.2
    rw [← hpp]
    simpa [ppMsg] using hnr
  · refine List.Pairwise.map ppMsg ?_
      (pairwise_jsSortStable ((verifyEmitted calls text rs).filter (fun m => !m.rollup)) ?_)
    · intro a b hab
      simpa [lineColLe, ppMsg] using hab
    · intro m hm
      have hmf := List.mem_filter.mp hm
      exact ⟨hwf m hmf.1, by simpa using hmf.2⟩
  · exact (jsSortStable_perm _).map ppMsg

/-- Number of newline characters in a character list. -/
def countNl (l : List Char) : Nat := (l.filter (fun c => c = '\n')).length

/-- The 1-based line number of position `i` in `text`: one more than the
number of newlines at positions up to and including `i`. -/
def lineAt (text : List Char) (i : Nat) : Nat := 1 + countNl (text.take (i + 1))

/-- The invariant of the (eol, lineno) pair maintained by the line
counting loop of `applyEmbeddedOverrides`: either still initial, or eol
is a newline position and lineno counts the newlines before it plus one,
or eol is the text length and lineno counts all newlines plus one. -/
def EolInv (text : List Char) (eol : Int) (lineno : Nat) : Prop :=
  (eol = -1 ∧ lineno = 0) ∨
  (∃ j : Nat, eol = (j : Int) ∧ j < text.length ∧ text.get? j = some '\n' ∧
    lineno = 1 + countNl (text.take j)) ∨
  (eol = (text.length : Int) ∧ lineno = 1 + countNl text)

/-- No newline occurs at a position strictly between `idx` and `eol`. -/
def NoNlBetween (text : List Char) (idx eol : Int) : Prop :=
  ∀ j : Nat, idx < (j : Int) → (j : Int) < eol → text.get? j ≠ some '\n'

theorem EolInv.le_length {text : List Char} {eol : Int} {lineno : Nat}
    (h : EolInv text eol lineno) : eol ≤ (text.length : Int) := by
  rcases h with ⟨h1, _⟩ | ⟨j, hj, hlt, _, _⟩ | ⟨h1, _⟩ <;> omega

theorem EolInv.neg_one_le {text : List Char} {eol : Int} {lineno : Nat}
    (h : EolInv text eol lineno) : -1 ≤ eol := by
  rcases h with ⟨h1, _⟩ | ⟨j, hj, _, _, _⟩ | ⟨h1, _⟩ <;> omega

theorem findIdx_single_some_spec (c : Char) :
    ∀ (l : List Char) (i : Nat), findIdx [c] l = some i →
      i < l.length ∧ l.get? i = some c ∧ ∀ p, p < i → l.get? p ≠ some c := by
  intro l
  induction l with
  | nil =>
    intro i h
    rw [findIdx] at h
    simp at h
  | cons x rest ih =>
    intro i h
    rw [findIdx] at h
    by_cases hp : [c].isPrefixOf (x :: rest)
    · rw [if_pos hp] at h
      have hi : i = 0 := (Option.some.inj h).symm
      subst hi
      have hcx : c = x := (List.cons_prefix_cons.mp (List.isPrefixOf_iff_prefix.mp hp)).1
      refine ⟨by simp, by simp [hcx], ?_⟩
      intro p hp2
      omega
    · rw [if_neg hp] at h
      obtain ⟨i2, hi2, hplus⟩ := Option.map_eq_some'.mp h
      obtain ⟨hlen, hget, hmin⟩ := ih i2 hi2
      have hcx : c ≠ x := by
        intro hc
        exact hp (List.isPrefixOf_iff_prefix.mpr (by rw [hc]; exact ⟨rest, rfl⟩))
      subst hplus
      refine ⟨by simpa using hlen, by simpa using hget, ?_⟩
      intro p hplt
      rcases p with _ | p2
      · simp
        intro hc
        exact hcx hc.symm
      · rw [List.get?_cons_succ]
        exact hmin p2 (by omega)

theorem jsIndexOfFrom_findIdx_some {hay pat : List Char} {fr : Int} {i : Nat}
    (h : findIdx pat (hay.drop fr.toNat) = some i) :
    jsIndexOfFrom hay pat fr = ((fr.toNat + i : Nat) : Int) := by
  rw [jsIndexOfFrom, h]

theorem jsIndexOfFrom_findIdx_none {hay pat : List Char} {fr : Int}
    (h : findIdx pat (hay.drop fr.toNat) = none) :
    jsIndexOfFrom hay pat fr = -1 := by
  rw [jsIndexOfFrom, h]

theorem jsIndexOfFrom_nl_neg {text : List Char} {k : Int} (hk : 0 ≤ k)
    (h : jsIndexOfFrom text ['\n'] k < 0) :
    ∀ p : Nat, k ≤ (p : Int) → text.get? p ≠ some '\n' := by
  intro p hp hget
  rcases hf : findIdx ['\n'] (text.drop k.toNat) with _ | i
  · have hmem : '\n' ∈ text.drop k.toNat := by
      have hg2 : (text.drop k.toNat).get? (p - k.toNat) = some '\n' := by
        rw [List.get?_drop]
        rw [show k.toNat + (p - k.toNat) = p by omega]
        exact hget
      exact List.get?_mem hg2
    exact (findIdx_single_none_iff '\n' (text.drop k.toNat)).mp hf hmem
  · rw [jsIndexOfFrom_findIdx_some hf] at h
    omega

theorem jsIndexOfFrom_nl_pos {text : List Char} {k : Int} (hk : 0 ≤ k)
    (hr : 0 ≤ jsIndexOfFrom text ['\n'] k) :
    ∃ j : Nat, jsIndexOfFrom text ['\n'] k = (j : Int) ∧ k ≤ (j : Int) ∧
      j < text.length ∧ text.get? j = some '\n' ∧
      ∀ p : Nat, k ≤ (p : Int) → p < j → text.get? p ≠ some '\n' := by
  rcases hf : findIdx ['\n'] (text.drop k.toNat) with _ | i
  · rw [jsIndexOfFrom_findIdx_none hf] at hr
    omega
  · rw [jsIndexOfFrom_findIdx_some hf]
    obtain ⟨hlen, hget, hmin⟩ := findIdx_single_some_spec '\n' (text.drop k.toNat) i hf
    rw [List.get?_drop] at hget
    refine ⟨k.toNat + i, by simp, by omega, ?_, hget, ?_⟩
    · have := List.length_drop k.toNat text ▸ hlen
      omega
    · intro p hp1 hp2
      have hpk : k.toNat ≤ p := by omega
      have := hmin (p - k.toNat) (by omega)
      rw [List.get?_drop, show k.toNat + (p - k.toNat) = p by omega] at this
      exact this

theorem countNl_take_succ_nl {text : List Char} {j : Nat}
    (h : text.get? j = some '\n') :
    countNl (text.take (j + 1)) = countNl (text.take j) + 1 := by
  rw [countNl, countNl, List.take_succ, ← List.get?_eq_getElem?, h]
  simp

theorem countNl_take_succ_not_nl {text : List Char} {j : Nat}
    (h : text.get? j ≠ some '\n') :
    countNl (text.take (j + 1)) = countNl (text.take j) := by
  rw [countNl, countNl, List.take_succ, ← List.get?_eq_getElem?]
  rcases hg : text.get? j with _ | c
  · simp
  · rw [hg] at h
    have hc : c ≠ '\n' := fun hcc => h (by rw [hcc])
    simp [hc]

theorem countNl_take_eq_of_no_nl {text : List Char} {a : Nat} :
    ∀ b : Nat, a ≤ b → (∀ p : Nat, a ≤ p → p < b → text.get? p ≠ some '\n') →
      countNl (text.take b) = countNl (text.take a) := by
  intro b
  induction b with
  | zero =>
    intro hab _
    rw [Nat.le_zero.mp hab]
  | succ b2 ih =>
    intro hab hno
    rcases Nat.lt_or_ge a (b2 + 1) with hlt | hge
    · have hab2 : a ≤ b2 := by omega
      rw [countNl_take_succ_not_nl (hno b2 hab2 (by omega))]
      exact ih hab2 (fun p hp1 hp2 => hno p hp1 (by omega))
    · have : a = b2 + 1 := by omega
      rw [this]

theorem countNl_take_of_length_le {text : List Char} {b : Nat}
    (h : text.length ≤ b) : countNl (text.take b) = countNl text := by
  rw [List.take_of_length_le h]

/-- Correctness of the incremental line counter: started from a state
satisfying the invariant with no newline skipped past `idx`, the loop
lands strictly past `idx` and its counter equals the 1-based line number
of `idx`. -/
theorem advanceLine_spec (text : List Char) :
    ∀ (fuel : Nat) (eol : Int) (lineno : Nat) (idx : Nat),
      idx < text.length →
      (text.length : Int) + 1 ≤ (fuel : Int) + eol →
      EolInv text eol lineno →
      ((idx : Int) < eol → NoNlBetween text (idx : Int) eol) →
      EolInv text (advanceLine text idx fuel eol lineno).1
          (advanceLine text idx fuel eol lineno).2 ∧
      (idx : Int) < (advanceLine text idx fuel eol lineno).1 ∧
      NoNlBetween text (idx : Int) (advanceLine text idx fuel eol lineno).1 ∧
      (advanceLine text idx fuel eol lineno).2 = lineAt text idx := by
  intro fuel
  induction fuel with
  | zero =>
    intro eol lineno idx hidx hfuel hinv _
    exact absurd hinv.le_length (by push_neg; omega)
  | succ f ih =>
    intro eol lineno idx hidx hfuel hinv hnn
    rw [advanceLine]
    by_cases hle : eol ≤ (idx : Int)
    · rw [if_pos hle]
      dsimp only
      have hge0 : (0 : Int) ≤ eol + 1 := by
        have := hinv.neg_one_le
        omega
      have heol_lt : eol < (text.length : Int) := by omega
      rcases Int.lt_or_le (jsIndexOfFrom text ['\n'] (eol + 1)) 0 with hneg | hpos
      · have hnonl := jsIndexOfFrom_nl_neg hge0 hneg
        rw [if_pos hneg]
        have hinv2 : EolInv text (text.length : Int) (lineno + 1) := by
          rcases hinv with ⟨he, hl⟩ | ⟨j, hj, hjlt, hjnl, hl⟩ | ⟨he, hl⟩
          · refine Or.inr (Or.inr ⟨rfl, ?_⟩)
            subst hl
            have h0 : countNl text = countNl (text.take 0) := by
              rw [← countNl_take_of_length_le (Nat.le_refl text.length)]
              exact countNl_take_eq_of_no_nl text.length (Nat.zero_le _)
                (fun p _ _ => hnonl p (by omega))
            have h1 : countNl (text.take 0) = 0 := rfl
            omega
          · refine Or.inr (Or.inr ⟨rfl, ?_⟩)
            subst hl
            have h1 : countNl text = countNl (text.take (j + 1)) := by
              rw [← countNl_take_of_length_le (Nat.le_refl text.length)]
              exact countNl_take_eq_of_no_nl text.length (by omega)
                (fun p hp1 _ => hnonl p (by omega))
            have h2 := countNl_take_succ_nl hjnl
            omega
          · exact absurd he (by omega)
        have hnn2 : (idx : Int) < (text.length : Int) →
            NoNlBetween text (idx : Int) (text.length : Int) := by
          intro _
          intro p hp1 hp2
          exact hnonl p (by omega)
        have := ih (text.length : Int) (lineno + 1) idx hidx (by omega) hinv2 hnn2
        exact this
      · obtain ⟨j, hjeq, hjge, hjlt, hjnl, hjmin⟩ := jsIndexOfFrom_nl_pos hge0 hpos
        rw [if_neg (by omega), hjeq]
        have hinv2 : EolInv text (j : Int) (lineno + 1) := by
          refine Or.inr (Or.inl ⟨j, rfl, hjlt, hjnl, ?_⟩)
          rcases hinv with ⟨he, hl⟩ | ⟨j0, hj0, hj0lt, hj0nl, hl⟩ | ⟨he, hl⟩
          · subst hl
            have h0 : countNl (text.take j) = countNl (text.take 0) :=
              countNl_take_eq_of_no_nl j (Nat.zero_le _)
                (fun p _ hp2 => hjmin p (by omega) hp2)
            have h1 : countNl (text.take 0) = 0 := rfl
            omega
          · subst hl
            have hj0j : j0 + 1 ≤ j := by omega
            have h1 : countNl (text.take j) = countNl (text.take (j0 + 1)) :=
              countNl_take_eq_of_no_nl j hj0j
                (fun p hp1 hp2 => hjmin p (by omega) hp2)
            have h2 := countNl_take_succ_nl hj0nl
            omega
          · exact absurd he (by omega)
        have hnn2 : (idx : Int) < (j : Int) → NoNlBetween text (idx : Int) (j : Int) := by
          intro _
          intro p hp1 hp2
          exact hjmin p (by omega) (by omega)
        have := ih (j : Int) (lineno + 1) idx hidx (by omega) hinv2 hnn2
        exact this
    · rw [if_neg hle]
      push_neg at hle
      have hnn2 := hnn hle
      refine ⟨hinv, hle, hnn2, ?_⟩
      rcases hinv with ⟨he, hl⟩ | ⟨j, hj, hjlt, hjnl, hl⟩ | ⟨he, hl⟩
      · exact absurd hle (by omega)
      · subst hl
        rw [lineAt]
        have h0 : countNl (text.take j) = countNl (text.take (idx + 1)) :=
          countNl_take_eq_of_no_nl j (by omega)
            (fun p hp1 hp2 => hnn2 p (by omega) (by omega))
        omega
      · subst hl
        rw [lineAt]
        have h1 : countNl text = countNl (text.take text.length) :=
          (countNl_take_of_length_le (Nat.le_refl text.length)).symm
        have h2 : countNl (text.take text.length) = countNl (text.take (idx + 1)) :=
          countNl_take_eq_of_no_nl text.length (by omega)
            (fun p hp1 hp2 => hnn2 p (by omega) (by omega))
        omega

theorem processDirective_lineno (body : List Char) (st : ScanState) :
    (processDirective body st).lineno = st.lineno := by
  unfold processDirective
  dsimp only
  split_ifs <;> first | rfl | (split <;> rfl)

theorem processDirective_eol (body : List Char) (st : ScanState) :
    (processDirective body st).eol = st.eol := by
  unfold processDirective
  dsimp only
  split_ifs <;> first | rfl | (split <;> rfl)

/-- One iteration of the match loop of `applyEmbeddedOverrides`: advance
the line counter to the match index, then apply the directive. -/
def scanStep (text : List Char) (st : ScanState) (m : Nat × List Char × Nat) : ScanState :=
  let el := advanceLine text m.1 (text.length + 2) st.eol st.lineno
  processDirective m.2.1 { st with eol := el.1, lineno := el.2 }

theorem scanLoop_eq_foldl (text : List Char) :
    ∀ (fuel i : Nat) (st : ScanState),
      scanLoop text fuel i st = (matchesFrom text fuel i).foldl (scanStep text) st := by
  intro fuel
  induction fuel with
  | zero =>
    intro i st
    rfl
  | succ f ih =>
    intro i st
    rw [scanLoop, matchesFrom]
    rcases he : execFrom text (text.length + 2) i with _ | ⟨p, b, e⟩
    · rfl
    · rw [List.foldl_cons]
      exact ih e (scanStep text st (p, b, e))

theorem matchCommentAt_nil : matchCommentAt [] = none := rfl

theorem matchCommentAt_pos {l b : List Char} {n : Nat}
    (h : matchCommentAt l = some (b, n)) : 1 ≤ n := by
  unfold matchCommentAt at h
  split at h
  · dsimp only at h
    split_ifs at h <;>
      first
      | cases h
      | (split at h <;>
          first
          | (obtain ⟨hb, hn⟩ := Prod.ext_iff.mp (Option.some.inj h); omega)
          | cases h)
  · cases h

theorem execFrom_facts {text : List Char} :
    ∀ (fuel i : Nat) {p e : Nat} {b : List Char},
      execFrom text fuel i = some (p, b, e) → i ≤ p ∧ p < text.length ∧ p < e := by
  intro fuel
  induction fuel with
  | zero =>
    intro i p e b h
    cases h
  | succ f ih =>
    intro i p e b h
    rw [execFrom] at h
    split_ifs at h with hlen
    rcases hm : matchCommentAt (text.drop i) with _ | ⟨body, n⟩ <;> rw [hm] at h
    · obtain ⟨h1, h2, h3⟩ := ih (i + 1) h
      exact ⟨by omega, h2, h3⟩
    · obtain ⟨hp, hrest⟩ := Prod.ext_iff.mp (Option.some.inj h)
      obtain ⟨hb, he⟩ := Prod.ext_iff.mp hrest
      dsimp only at hp hb he
      have hpos := matchCommentAt_pos hm
      have hdrop : text.drop i ≠ [] := by
        intro hnil
        rw [hnil] at hm
        cases hm
      have hilen : i < text.length := by
        by_contra hc
        exact hdrop (List.drop_eq_nil_of_le (by omega))
      omega

theorem matchesFrom_bounds {text : List Char} :
    ∀ (fuel i : Nat), ∀ m ∈ matchesFrom text fuel i, i ≤ m.1 ∧ m.1 < text.length := by
  intro fuel
  induction fuel with
  | zero =>
    intro i m hm
    cases hm
  | succ f ih =>
    intro i m hm
    rw [matchesFrom] at hm
    rcases he : execFrom text (text.length + 2) i with _ | ⟨p, b, e⟩ <;> rw [he] at hm
    · cases hm
    · obtain ⟨h1, h2, h3⟩ := execFrom_facts (text.length + 2) i he
      rcases List.mem_cons.mp hm with rfl | hm2
      · exact ⟨h1, h2⟩
      · obtain ⟨h4, h5⟩ := ih e m hm2
        exact ⟨by omega, h5⟩

theorem matchesFrom_pairwise {text : List Char} :
    ∀ (fuel i : Nat), (matchesFrom text fuel i).Pairwise (fun a b => a.1 < b.1) := by
  intro fuel
  induction fuel with
  | zero =>
    intro i
    exact List.Pairwise.nil
  | succ f ih =>
    intro i
    rw [matchesFrom]
    rcases he : execFrom text (text.length + 2) i with _ | ⟨p, b, e⟩
    · exact List.Pairwise.nil
    · refine List.pairwise_cons.mpr ⟨?_, ih e⟩
      intro m hm
      obtain ⟨h1, h2, h3⟩ := execFrom_facts (text.length + 2) i he
      obtain ⟨h4, h5⟩ := matchesFrom_bounds f e m hm
      omega

theorem foldl_scanStep_lineno (text : List Char) :
    ∀ (ms : List (Nat × List Char × Nat)) (st : ScanState) (last : Int),
      EolInv text st.eol st.lineno →
      NoNlBetween text last st.eol →
      (∀ m ∈ ms, last < (m.1 : Int) ∧ m.1 < text.length) →
      ms.Pairwise (fun a b => a.1 < b.1) →
      ∀ hne : ms ≠ [],
        (ms.foldl (scanStep text) st).lineno = lineAt text ((ms.getLast hne).1) := by
  intro ms
  induction ms with
  | nil =>
    intro st last _ _ _ _ hne
    exact absurd rfl hne
  | cons m ms2 ih =>
    intro st last hinv hnn hmem hpw hne
    obtain ⟨hlast, hmlen⟩ := hmem m (List.mem_cons_self m ms2)
    have hadv := advanceLine_spec text (text.length + 2) st.eol st.lineno m.1 hmlen
      (by have := hinv.neg_one_le; push_cast; omega) hinv
      (fun hlt j hj1 hj2 => hnn j (by omega) hj2)
    have hstep_eol : (scanStep text st m).eol =
        (advanceLine text m.1 (text.length + 2) st.eol st.lineno).1 := by
      rw [scanStep, processDirective_eol]
    have hstep_lineno : (scanStep text st m).lineno =
        (advanceLine text m.1 (text.length + 2) st.eol st.lineno).2 := by
      rw [scanStep, processDirective_lineno]
    rcases ms2 with _ | ⟨m2, ms3⟩
    · show (scanStep text st m).lineno = lineAt text (((m :: []).getLast hne).1)
      rw [hstep_lineno, hadv.2.2.2]
      rfl
    · rw [List.foldl_cons]
      have hpw2 := List.pairwise_cons.mp hpw
      have hrec := ih (scanStep text st m) (m.1 : Int)
        (by rw [hstep_eol, hstep_lineno]; exact hadv.1)
        (by rw [hstep_eol]; exact hadv.2.2.1)
        (fun mm hmm => ⟨by exact_mod_cast hpw2.1 mm hmm,
          (hmem mm (List.mem_cons_of_mem m hmm)).2⟩)
        hpw2.2 (by simp)
      rw [hrec]
      exact congrArg (fun p : Nat × List Char × Nat => lineAt text p.1)
        (List.getLast_cons (by simp)).symm

/-- C6 (counterexample): on this text the ignore:start comment is never
closed; the appended range is [1, 1] (the line of the last directive
match) although the final line of the text is 4. -/
theorem unclosed_ignore_not_final_line_cex :
    (applyEmbeddedOverrides
        "/* csslint ignore:start */\na{}\nb{}\nc{}".toList [] 0).ignore = [(1, 1)] ∧
    countNl "/* csslint ignore:start */\na{}\nb{}\nc{}".toList + 1 = 4 ∧
    (1 : Nat) ≠ 4 := by
  exact ⟨by decide, by decide, by decide⟩

/-- C6 (amended): when an ignore:start directive is pending at the end of
the scan, the extractor appends a range closing at the value of the line
counter when scanning stopped, which is the line of the last embedded
directive match in the text, not the final line of the text. -/
theorem unclosed_ignore_ends_at_last_match (text : List Char)
    (rs : List (String × Nat)) (start S : Nat)
    (hne : matchesFrom text (text.length + 2) start ≠ [])
    (hopen : (scanLoop text (text.length + 2) start (initialScanState rs)).ignoreStart
      = some S) :
    (applyEmbeddedOverrides text rs start).ignore =
      (scanLoop text (text.length + 2) start (initialScanState rs)).ignore ++
        [(S, lineAt text (((matchesFrom text (text.length + 2) start).getLast hne).1))] := by
  have hlineno : (scanLoop text (text.length + 2) start (initialScanState rs)).lineno =
      lineAt text (((matchesFrom text (text.length + 2) start).getLast hne).1) := by
    rw [scanLoop_eq_foldl]
    exact foldl_scanStep_lineno text (matchesFrom text (text.length + 2) start)
      (initialScanState rs) (-1)
      (Or.inl ⟨rfl, rfl⟩)
      (fun j hj1 hj2 => by simp [initialScanState] at hj2; omega)
      (fun m hm => ⟨by omega, (matchesFrom_bounds (text.length + 2) start m hm).2⟩)
      (matchesFrom_pairwise (text.length + 2) start) hne
  rw [applyEmbeddedOverrides]
  rw [hopen]
  dsimp only
  rw [hlineno]

theorem unclosed_ignore_ends_at_last_match_witness :
    (applyEmbeddedOverrides
        "/* csslint ignore:start */\na{}\nb{}\nc{}".toList [] 0).ignore = [(1, 1)] := by
  have h := unclosed_ignore_ends_at_last_match
    "/* csslint ignore:start */\na{}\nb{}\nc{}".toList [] 0 1 (by decide) (by decide)
  rw [h]
  decide

end Csslint
